import Mathlib

/-!
Shallow embedding of the ABCIE shift scheduler
(src/streamlit_shift_app.py) and proofs about its assignment engine.

Dates are modelled as natural numbers counting days from a fixed Monday
epoch, so Python's convention `datetime.weekday()` (Monday = 0) becomes
`d % 7`, adding `timedelta(days=1)` becomes `d + 1`, and
`(current - last).days` becomes integer subtraction.  The employees table
is a list of rows in rowid order; SQL NULL in the integer columns is kept
as `Option`, and the comma-joined text columns (`off_days`,
`allowed_zones`) are kept at the parsed-list level that `get_employees`
produces.
-/

/-- A row of the `employees` table as seen through `get_employees`:
NULLable integer columns stay `Option Int`, the comma-joined text columns
are the parsed lists. -/
structure Row where
  name : String
  points : Option Int
  max_points : Option Int
  off_days : List Nat
  preferred_zone : Option String
  allowed_zones : List String
deriving DecidableEq, Repr

/-- The fixed five-zone set `ZONES = ["A", "B", "C", "I", "E"]`. -/
def ZONES : List String := ["A", "B", "C", "I", "E"]

/-- One entry appended to `schedule`:
`{"Date": ..., "Shift": zone, "Employee": chosen, "Points": point_value}`. -/
structure AssignmentRecord where
  date : Nat
  shift : String
  employee : String
  points : Int
deriving DecidableEq, Repr

/-- One entry appended to `unassigned`:
`{"Date": ..., "Zone": zone, "Reason": ...}`. -/
structure UnassignedRecord where
  date : Nat
  zone : String
  reason : String
deriving DecidableEq, Repr

/-- `update_points`: `UPDATE employees SET points = points + ? WHERE name = ?`.
SQL arithmetic on NULL yields NULL, hence `Option.map`. -/
def update_points (db : List Row) (name : String) (points : Int) : List Row :=
  db.map fun r =>
    if r.name == name then { r with points := r.points.map fun p => p + points } else r

/-- `is_weekend`: Python `weekday() >= 5` on the Monday-epoch day count. -/
def is_weekend (d : Nat) : Bool :=
  decide (5 ≤ d % 7)

/-- The per-day load cost: `point_value = 2 if is_weekend(date_str) else 1`. -/
def point_value (d : Nat) : Int :=
  if is_weekend d then 2 else 1

/-- `days_since_last = (current - last).days if last else 9999`. -/
def days_since_last (assigned_last : String → Option Nat) (name : String)
    (current : Nat) : Int :=
  match assigned_last name with
  | some l => (current : Int) - (l : Int)
  | none => 9999

/-- The five-way eligibility conjunction from the candidate loop of
`generate_schedule` (lines 119-125 of the source):
`date_str not in off_days and name not in assigned_today and
days_since_last >= 3 and (points + point_value) <= max_points and
zone in allowed`, with `max_points` read as
`int(r["max_points"]) if pd.notna(r["max_points"]) else 0`. -/
def eligible (date : Nat) (zone : String) (pv : Int) (points_map : String → Int)
    (assigned_last : String → Option Nat) (assigned_today : List String)
    (r : Row) : Bool :=
  !(r.off_days.contains date) &&
  !(assigned_today.contains r.name) &&
  decide (3 ≤ days_since_last assigned_last r.name date) &&
  decide (points_map r.name + pv ≤ r.max_points.getD 0) &&
  r.allowed_zones.contains zone

/-- `pref_match = (preferred == zone)` where
`preferred = (r.get("preferred_zone") or "").strip()`. -/
def pref_match (r : Row) (zone : String) : Bool :=
  (r.preferred_zone.getD "").trim == zone

/-- The `for _, r in df.iterrows()` loop that appends
`(pref_match, points, name)` for each row passing `eligible`. -/
def collect_candidates (date : Nat) (zone : String) (pv : Int)
    (points_map : String → Int) (assigned_last : String → Option Nat)
    (assigned_today : List String) : List Row → List (Bool × Int × String)
  | [] => []
  | r :: rs =>
    if eligible date zone pv points_map assigned_last assigned_today r then
      (pref_match r zone, points_map r.name, r.name) ::
        collect_candidates date zone pv points_map assigned_last assigned_today rs
    else
      collect_candidates date zone pv points_map assigned_last assigned_today rs

/-- The Python sort key `(-int(t[0]), t[1], t[2])` of a candidate tuple. -/
def sortKey (c : Bool × Int × String) : Int × Int × String :=
  (if c.1 then -1 else 0, c.2.1, c.2.2)

/-- Strict lexicographic order on sort keys (Python tuple `<`). -/
def keyLT (x y : Int × Int × String) : Prop :=
  x.1 < y.1 ∨ (x.1 = y.1 ∧ (x.2.1 < y.2.1 ∨ (x.2.1 = y.2.1 ∧ x.2.2 < y.2.2)))

/-- The total preorder `candidates.sort(key=lambda t: (-int(t[0]), t[1], t[2]))`
sorts by: key of the first at most key of the second. -/
def candLE (a b : Bool × Int × String) : Prop :=
  keyLT (sortKey a) (sortKey b) ∨ sortKey a = sortKey b

instance keyLT.decRel : DecidableRel keyLT := fun x y => by
  unfold keyLT; infer_instance

instance candLE.decRel : DecidableRel candLE := fun a b => by
  unfold candLE; infer_instance

/-- `candidates.sort(...)` followed by `candidates[0]` when non-empty.
Python's `list.sort` is a stable sort, and any two stable sorts under the
same total preorder on keys produce the same list, so the structurally
recursive `List.insertionSort` (also stable) computes exactly the sorted
list Python produces. -/
def chooseWinner (cs : List (Bool × Int × String)) : Option (Bool × Int × String) :=
  (cs.insertionSort candLE).head?

/-- The mutable state of one `generate_schedule` run: the two output
lists, `assigned_last`, the in-memory `points_map`, the per-day
`assigned_today` set, and the database the run reads (and, when
`apply_points` is set, writes) through the connection. -/
structure RunState where
  schedule : List AssignmentRecord
  unassigned : List UnassignedRecord
  assigned_last : String → Option Nat
  points_map : String → Int
  assigned_today : List String
  db : List Row

/-- The dict comprehension
`{r["name"]: int(r["points"]) if pd.notna(r["points"]) else 0 for _, r in base_df.iterrows()}`
combined with the `.get(name, 0)` default used at every read. -/
def init_points_map (db : List Row) : String → Int :=
  db.foldl (fun m r => fun n => if n = r.name then r.points.getD 0 else m n)
    (fun _ => 0)

/-- Run state at the top of `generate_schedule`. -/
def initState (db : List Row) : RunState :=
  { schedule := []
    unassigned := []
    assigned_last := fun _ => none
    points_map := init_points_map db
    assigned_today := []
    db := db }

/-- The body of `for zone in ZONES` inside the day loop of
`generate_schedule`: re-read the employees table, handle the empty-roster
case, collect candidates, sort and pick the first, then update
`assigned_last`, `assigned_today`, `points_map` and (when `apply_points`)
the database, or record the gap. -/
def stepZone (apply_points : Bool) (date : Nat) (pv : Int) (st : RunState)
    (zone : String) : RunState :=
  let df := st.db
  if df.isEmpty then
    { st with unassigned :=
        st.unassigned ++ [{ date := date, zone := zone, reason := "No employees" }] }
  else
    let candidates :=
      collect_candidates date zone pv st.points_map st.assigned_last st.assigned_today df
    match chooseWinner candidates with
    | some c =>
      let chosen := c.2.2
      { st with
          schedule := st.schedule ++
            [{ date := date, shift := zone, employee := chosen, points := pv }]
          assigned_last := fun n => if n = chosen then some date else st.assigned_last n
          assigned_today := st.assigned_today ++ [chosen]
          points_map := fun n => if n = chosen then st.points_map n + pv else st.points_map n
          db := if apply_points then update_points st.db chosen pv else st.db }
    | none =>
      { st with unassigned :=
          st.unassigned ++
            [{ date := date, zone := zone, reason := "No eligible employees" }] }

/-- One iteration of the `while current <= end` loop: compute the day's
point value, reset `assigned_today`, and run every zone in order. -/
def stepDay (apply_points : Bool) (st : RunState) (date : Nat) : RunState :=
  ZONES.foldl (stepZone apply_points date (point_value date))
    { st with assigned_today := [] }

/-- The inclusive day list visited by `while current <= end`, empty when
the start is after the end. -/
def dateRange (s e : Nat) : List Nat :=
  (List.range (e + 1 - s)).map fun i => s + i

/-- The whole run of `generate_schedule`, returning the final state. -/
def runSchedule (db : List Row) (s e : Nat) (apply_points : Bool) : RunState :=
  (dateRange s e).foldl (stepDay apply_points) (initState db)

/-- `generate_schedule(conn, start_date, end_date, apply_points)`: the two
returned record lists. -/
def generate_schedule (db : List Row) (s e : Nat) (apply_points : Bool) :
    List AssignmentRecord × List UnassignedRecord :=
  ((runSchedule db s e apply_points).schedule, (runSchedule db s e apply_points).unassigned)

/-- `reset_points(conn, names)`: set `points = 0` for all rows, or for the
rows whose name is in the given list. -/
def reset_points (db : List Row) (names : Option (List String)) : List Row :=
  match names with
  | none => db.map fun r => { r with points := some 0 }
  | some ns => db.map fun r =>
      if ns.contains r.name then { r with points := some 0 } else r

/-- `add_or_update_employee`: `INSERT OR IGNORE` (append the fresh row only
when the primary key is absent) followed by an unconditional `UPDATE` of
the four mutable attribute columns for that name. -/
def add_or_update_employee (db : List Row) (name : String) (initial_points : Int)
    (max_points : Int) (off_days : List Nat) (preferred_zone : Option String)
    (allowed_zones : List String) : List Row :=
  let db1 :=
    if db.any (fun r => r.name == name) then db
    else db ++ [{ name := name, points := some initial_points,
                  max_points := some max_points, off_days := off_days,
                  preferred_zone := preferred_zone, allowed_zones := allowed_zones }]
  db1.map fun r =>
    if r.name == name then
      { r with max_points := some max_points, off_days := off_days,
               preferred_zone := preferred_zone, allowed_zones := allowed_zones }
    else r

/-- The Generate button handler (source lines 297-303): reject a reversed
date range with a validation error before calling the engine, otherwise
run it. -/
def generate_button (db : List Row) (s e : Nat) (apply_points : Bool) :
    Except String (List AssignmentRecord × List UnassignedRecord) :=
  if e < s then Except.error "Start date must be on or before end date."
  else Except.ok (generate_schedule db s e apply_points)

example :
    (runSchedule [{ name := "X", points := some 0, max_points := some 10,
                    off_days := [], preferred_zone := none,
                    allowed_zones := ["A"] }] 0 3 false).schedule =
      [{ date := 0, shift := "A", employee := "X", points := 1 },
       { date := 3, shift := "A", employee := "X", points := 1 }] := by
  decide

/-! ### Counting infrastructure for the once-per-pair property -/

/-- Multiplicity of an element in a list. -/
def occ {α : Type} [DecidableEq α] (a : α) : List α → Nat
  | [] => 0
  | b :: l => (if b = a then 1 else 0) + occ a l

lemma occ_append {α : Type} [DecidableEq α] (a : α) (l1 l2 : List α) :
    occ a (l1 ++ l2) = occ a l1 + occ a l2 := by
  induction l1 with
  | nil => simp [occ]
  | cons b l ih => simp [occ, ih, Nat.add_assoc]

lemma occ_eq_zero_of_not_mem {α : Type} [DecidableEq α] {a : α} {l : List α}
    (h : a ∉ l) : occ a l = 0 := by
  induction l with
  | nil => rfl
  | cons b l ih =>
    simp only [List.mem_cons, not_or] at h
    simp [occ, Ne.symm h.1, ih h.2]

lemma occ_eq_one_of_nodup_mem {α : Type} [DecidableEq α] {a : α} {l : List α}
    (hnd : l.Nodup) (h : a ∈ l) : occ a l = 1 := by
  induction l with
  | nil => simp at h
  | cons b l ih =>
    rcases List.mem_cons.mp h with rfl | h
    · simp [occ, occ_eq_zero_of_not_mem (List.nodup_cons.mp hnd).1]
    · have hab : b ≠ a := by
        rintro rfl; exact (List.nodup_cons.mp hnd).1 h
      simp [occ, hab, ih (List.nodup_cons.mp hnd).2 h]

/-- The (date, zone) keys of every record emitted so far, assignments
first. -/
def recKeys (st : RunState) : List (Nat × String) :=
  st.schedule.map (fun r => (r.date, r.shift)) ++
    st.unassigned.map (fun u => (u.date, u.zone))

lemma recKeys_stepZone (ap : Bool) (d : Nat) (pv : Int) (st : RunState)
    (z : String) (k : Nat × String) :
    occ k (recKeys (stepZone ap d pv st z)) =
      occ k (recKeys st) + (if (d, z) = k then 1 else 0) := by
  unfold stepZone
  by_cases hemp : st.db.isEmpty
  · simp only [hemp, if_true, recKeys, List.map_append]
    simp [occ_append, occ]
    omega
  · simp only [hemp, if_false, Bool.false_eq_true]
    cases hcw : chooseWinner
        (collect_candidates d z pv st.points_map st.assigned_last st.assigned_today st.db) with
    | some c =>
      simp only [hcw, recKeys, List.map_append]
      simp [occ_append, occ]
      omega
    | none =>
      simp only [hcw, recKeys, List.map_append]
      simp [occ_append, occ]
      omega

lemma recKeys_foldZones (ap : Bool) (d : Nat) (pv : Int) (zs : List String)
    (st : RunState) (d' : Nat) (z' : String) :
    occ (d', z') (recKeys (zs.foldl (stepZone ap d pv) st)) =
      occ (d', z') (recKeys st) + (if d = d' then occ z' zs else 0) := by
  induction zs generalizing st with
  | nil => simp [occ]
  | cons z zs ih =>
    simp only [List.foldl_cons]
    rw [ih, recKeys_stepZone]
    by_cases hd : d = d' <;> by_cases hz : z = z' <;>
      simp [occ, hd, hz, Prod.ext_iff] <;> omega

lemma recKeys_stepDay (ap : Bool) (st : RunState) (d d' : Nat) (z' : String) :
    occ (d', z') (recKeys (stepDay ap st d)) =
      occ (d', z') (recKeys st) + (if d = d' then occ z' ZONES else 0) := by
  unfold stepDay
  rw [recKeys_foldZones]
  rfl

lemma recKeys_foldDays (ap : Bool) (ds : List Nat) (st : RunState)
    (d' : Nat) (z' : String) :
    occ (d', z') (recKeys (ds.foldl (stepDay ap) st)) =
      occ (d', z') (recKeys st) + occ d' ds * occ z' ZONES := by
  induction ds generalizing st with
  | nil => simp [occ]
  | cons d ds ih =>
    simp only [List.foldl_cons]
    rw [ih, recKeys_stepDay]
    by_cases hd : d = d' <;> simp [occ, hd, Nat.add_mul] <;> ring

lemma nodup_dateRange (s e : Nat) : (dateRange s e).Nodup :=
  (List.nodup_range (e + 1 - s)).map (add_right_injective s)

lemma occ_ZONES_eq_one {z : String} (hz : z ∈ ZONES) : occ z ZONES = 1 := by
  simp only [ZONES, List.mem_cons, List.not_mem_nil, or_false] at hz
  rcases hz with rfl | rfl | rfl | rfl | rfl <;> decide

/-- C1: for every valid inclusive date range and every roster snapshot,
`generate_schedule` emits exactly one record, assignment or unassigned,
for each (date, zone) pair with the date in the inclusive range and the
zone among the five fixed zones: no pair is missing and none is recorded
twice. -/
theorem c1_one_record_per_pair (db : List Row) (s e : Nat) (ap : Bool)
    (hse : s ≤ e) (d : Nat) (z : String) (hd : d ∈ dateRange s e)
    (hz : z ∈ ZONES) :
    occ (d, z)
      ((generate_schedule db s e ap).1.map (fun r => (r.date, r.shift)) ++
       (generate_schedule db s e ap).2.map (fun u => (u.date, u.zone))) = 1 := by
  have hkeys :
      ((generate_schedule db s e ap).1.map (fun r => (r.date, r.shift)) ++
       (generate_schedule db s e ap).2.map (fun u => (u.date, u.zone))) =
        recKeys (runSchedule db s e ap) := rfl
  rw [hkeys]
  unfold runSchedule
  rw [recKeys_foldDays]
  have h0 : occ (d, z) (recKeys (initState db)) = 0 := rfl
  rw [h0, occ_eq_one_of_nodup_mem (nodup_dateRange s e) hd, occ_ZONES_eq_one hz]

/-- C1 witness: a concrete run on an empty roster over a one-day range,
where the pair (0, "A") is recorded exactly once. -/
theorem c1_one_record_per_pair_witness :
    (0 : Nat) ≤ 0 ∧ (0 : Nat) ∈ dateRange 0 0 ∧ "A" ∈ ZONES ∧
      occ ((0 : Nat), "A")
        (((generate_schedule [] 0 0 false).1.map (fun r => (r.date, r.shift))) ++
         ((generate_schedule [] 0 0 false).2.map (fun u => (u.date, u.zone)))) = 1 :=
  ⟨le_refl 0, by decide, by decide,
    c1_one_record_per_pair [] 0 0 false (le_refl 0) 0 "A" (by decide) (by decide)⟩

/-! ### The eligibility filter as a five-way conjunction -/

lemma days_since_last_iff (al : String → Option Nat) (n : String) (d : Nat) :
    3 ≤ days_since_last al n d ↔
      ∀ l, al n = some l → 3 ≤ (d : Int) - (l : Int) := by
  unfold days_since_last
  cases h : al n with
  | none =>
    simp only [h]
    constructor
    · intro _ l hl; cases hl
    · intro _; norm_num
  | some l => simp [h]

lemma eligible_iff (date : Nat) (zone : String) (pv : Int)
    (points_map : String → Int) (assigned_last : String → Option Nat)
    (assigned_today : List String) (r : Row) :
    eligible date zone pv points_map assigned_last assigned_today r = true ↔
      (date ∉ r.off_days ∧ r.name ∉ assigned_today ∧
       (∀ l, assigned_last r.name = some l → 3 ≤ (date : Int) - (l : Int)) ∧
       points_map r.name + pv ≤ r.max_points.getD 0 ∧
       zone ∈ r.allowed_zones) := by
  unfold eligible
  rw [← days_since_last_iff]
  simp [List.contains, and_assoc]

lemma mem_collect_candidates (date : Nat) (zone : String) (pv : Int)
    (points_map : String → Int) (assigned_last : String → Option Nat)
    (assigned_today : List String) (rows : List Row)
    (c : Bool × Int × String) :
    c ∈ collect_candidates date zone pv points_map assigned_last assigned_today rows ↔
      ∃ r ∈ rows, c = (pref_match r zone, points_map r.name, r.name) ∧
        date ∉ r.off_days ∧ r.name ∉ assigned_today ∧
        (∀ l, assigned_last r.name = some l → 3 ≤ (date : Int) - (l : Int)) ∧
        points_map r.name + pv ≤ r.max_points.getD 0 ∧
        zone ∈ r.allowed_zones := by
  induction rows with
  | nil => simp [collect_candidates]
  | cons r rs ih =>
    by_cases h : eligible date zone pv points_map assigned_last assigned_today r
    · simp only [collect_candidates, if_pos h, List.mem_cons, ih]
      rw [eligible_iff] at h
      constructor
      · rintro (rfl | ⟨r', hr', rest⟩)
        · exact ⟨r, Or.inl rfl, rfl, h⟩
        · exact ⟨r', Or.inr hr', rest⟩
      · rintro ⟨r', hr' | hr', hc, conds⟩
        · exact Or.inl (by rw [hc, hr'])
        · exact Or.inr ⟨r', hr', hc, conds⟩
    · simp only [collect_candidates, if_neg h, ih]
      rw [eligible_iff] at h
      constructor
      · rintro ⟨r', hr', rest⟩
        exact ⟨r', List.mem_cons_of_mem _ hr', rest⟩
      · rintro ⟨r', hr', hc, conds⟩
        rcases List.mem_cons.mp hr' with rfl | hr'
        · exact absurd conds h
        · exact ⟨r', hr', hc, conds⟩

/-- C2: a person is collected as a candidate for a (date, zone) pair iff
all five eligibility conditions hold: the date is not blocked for them,
they are not already assigned on that date, at least 3 days have elapsed
since their last in-run assignment (unconstrained when they have none),
their in-run load plus the day cost stays within their ceiling, and the
zone is among their allowed zones. -/
theorem c2_candidate_iff (date : Nat) (zone : String) (pv : Int)
    (points_map : String → Int) (assigned_last : String → Option Nat)
    (assigned_today : List String) (rows : List Row)
    (c : Bool × Int × String) :
    c ∈ collect_candidates date zone pv points_map assigned_last assigned_today rows ↔
      ∃ r ∈ rows, c = (pref_match r zone, points_map r.name, r.name) ∧
        date ∉ r.off_days ∧ r.name ∉ assigned_today ∧
        (∀ l, assigned_last r.name = some l → 3 ≤ (date : Int) - (l : Int)) ∧
        points_map r.name + pv ≤ r.max_points.getD 0 ∧
        zone ∈ r.allowed_zones :=
  mem_collect_candidates date zone pv points_map assigned_last assigned_today rows c

/-! ### The candidate ranker -/

lemma keyLT_asymm {x y : Int × Int × String} (h1 : keyLT x y)
    (h2 : keyLT y x) : False := by
  unfold keyLT at h1 h2
  rcases h1 with h1 | ⟨e1, h1 | ⟨e1', h1⟩⟩ <;>
    rcases h2 with h2 | ⟨e2, h2 | ⟨e2', h2⟩⟩ <;>
    first
      | omega
      | exact absurd h2 (not_lt.mpr (le_of_lt h1))
      | exact absurd (e1 ▸ h2) (lt_irrefl _)
      | exact absurd (e2 ▸ h1) (lt_irrefl _)
      | exact lt_asymm h1 h2

lemma keyLT_trans {x y z : Int × Int × String} (h1 : keyLT x y)
    (h2 : keyLT y z) : keyLT x z := by
  unfold keyLT at h1 h2 ⊢
  rcases h1 with h1 | ⟨e1, h1 | ⟨e1', h1⟩⟩ <;>
    rcases h2 with h2 | ⟨e2, h2 | ⟨e2', h2⟩⟩ <;>
    first
      | (left; omega)
      | (right; constructor; omega; left; omega)
      | (right; exact ⟨by omega, Or.inl (by omega)⟩)
      | (right; exact ⟨by omega, Or.inr ⟨by omega, e2' ▸ h1⟩⟩)
      | (right; exact ⟨by omega, Or.inr ⟨by omega, e1' ▸ h2⟩⟩)
      | (right; exact ⟨by omega, Or.inr ⟨by omega, lt_trans h1 h2⟩⟩)

lemma key_trichotomy (x y : Int × Int × String) :
    keyLT x y ∨ x = y ∨ keyLT y x := by
  obtain ⟨x1, x2, x3⟩ := x
  obtain ⟨y1, y2, y3⟩ := y
  unfold keyLT
  rcases lt_trichotomy x1 y1 with h1 | h1 | h1
  · exact Or.inl (Or.inl h1)
  · rcases lt_trichotomy x2 y2 with h2 | h2 | h2
    · exact Or.inl (Or.inr ⟨h1, Or.inl h2⟩)
    · rcases lt_trichotomy x3 y3 with h3 | h3 | h3
      · exact Or.inl (Or.inr ⟨h1, Or.inr ⟨h2, h3⟩⟩)
      · subst h1; subst h2; subst h3; exact Or.inr (Or.inl rfl)
      · exact Or.inr (Or.inr (Or.inr ⟨h1.symm, Or.inr ⟨h2.symm, h3⟩⟩))
    · exact Or.inr (Or.inr (Or.inr ⟨h1.symm, Or.inl h2⟩))
  · exact Or.inr (Or.inr (Or.inl h1))

instance : IsTotal (Bool × Int × String) candLE :=
  ⟨fun a b => by
    rcases key_trichotomy (sortKey a) (sortKey b) with h | h | h
    · exact Or.inl (Or.inl h)
    · exact Or.inl (Or.inr h)
    · exact Or.inr (Or.inl h)⟩

instance : IsTrans (Bool × Int × String) candLE :=
  ⟨fun a b c hab hbc => by
    rcases hab with hab | hab <;> rcases hbc with hbc | hbc
    · exact Or.inl (keyLT_trans hab hbc)
    · exact Or.inl (hbc ▸ hab)
    · exact Or.inl (hab ▸ hbc)
    · exact Or.inr (hab.trans hbc)⟩

lemma candLE_refl (a : Bool × Int × String) : candLE a a :=
  Or.inr rfl

lemma sortKey_inj {a b : Bool × Int × String} (h : sortKey a = sortKey b) :
    a = b := by
  obtain ⟨a1, a2, a3⟩ := a
  obtain ⟨b1, b2, b3⟩ := b
  simp only [sortKey, Prod.mk.injEq] at h
  obtain ⟨h1, h2, h3⟩ := h
  have : a1 = b1 := by cases a1 <;> cases b1 <;> simp_all <;> omega
  simp_all

lemma candLE_antisymm {a b : Bool × Int × String} (h1 : candLE a b)
    (h2 : candLE b a) : a = b := by
  rcases h1 with h1 | h1
  · rcases h2 with h2 | h2
    · exact absurd h2 (fun h2 => keyLT_asymm h1 h2)
    · exact (sortKey_inj h2).symm
  · exact sortKey_inj h1

lemma chooseWinner_mem {cs : List (Bool × Int × String)}
    {w : Bool × Int × String} (h : chooseWinner cs = some w) : w ∈ cs := by
  unfold chooseWinner at h
  cases hs : List.insertionSort candLE cs with
  | nil => rw [hs] at h; cases h
  | cons a l =>
    rw [hs] at h
    have hw : a = w := by simpa using h
    subst hw
    exact (List.perm_insertionSort candLE cs).mem_iff.mp
      (hs ▸ List.mem_cons_self a l)

lemma chooseWinner_min {cs : List (Bool × Int × String)}
    {w : Bool × Int × String} (h : chooseWinner cs = some w) :
    ∀ c ∈ cs, candLE w c := by
  unfold chooseWinner at h
  cases hs : List.insertionSort candLE cs with
  | nil => rw [hs] at h; cases h
  | cons a l =>
    rw [hs] at h
    have hw : a = w := by simpa using h
    subst hw
    intro c hc
    have hc' : c ∈ List.insertionSort candLE cs :=
      (List.perm_insertionSort candLE cs).mem_iff.mpr hc
    rw [hs] at hc'
    rcases List.mem_cons.mp hc' with rfl | hc'
    · exact candLE_refl c
    · have hsorted := List.sorted_insertionSort candLE cs
      rw [hs] at hsorted
      exact List.rel_of_sorted_cons hsorted c hc'

lemma chooseWinner_isSome {cs : List (Bool × Int × String)} (hne : cs ≠ []) :
    ∃ w, chooseWinner cs = some w := by
  unfold chooseWinner
  cases hs : List.insertionSort candLE cs with
  | nil =>
    have hp := List.perm_insertionSort candLE cs
    rw [hs] at hp
    exact absurd hp.symm.eq_nil hne
  | cons a l => exact ⟨a, rfl⟩

/-- C3: when the candidate list is non-empty, the engine picks exactly the
candidate that is minimal under the lexicographic sort key
(preferred-zone matches first, then accrued points ascending, then name
ascending), and that minimal candidate is unique. -/
theorem c3_ranker_minimal_unique (cs : List (Bool × Int × String))
    (hne : cs ≠ []) :
    ∃ w, chooseWinner cs = some w ∧ w ∈ cs ∧ (∀ c ∈ cs, candLE w c) ∧
      ∀ w' ∈ cs, (∀ c ∈ cs, candLE w' c) → w' = w := by
  obtain ⟨w, hw⟩ := chooseWinner_isSome hne
  exact ⟨w, hw, chooseWinner_mem hw, chooseWinner_min hw,
    fun w' hw' hmin =>
      candLE_antisymm (hmin w (chooseWinner_mem hw)) (chooseWinner_min hw w' hw')⟩

/-! ### Run invariants: load ceiling -/

lemma foldl_preserves {α β : Type} {P : α → Prop} (f : α → β → α)
    (hf : ∀ a b, P a → P (f a b)) :
    ∀ (l : List β) (a : α), P a → P (l.foldl f a)
  | [], _, ha => ha
  | b :: l, a, ha => foldl_preserves f hf l (f a b) (hf a b ha)

/-- The four attribute columns plus the key, i.e. everything in a row
except `points`. -/
def attrs (r : Row) : String × Option Int × List Nat × Option String × List String :=
  (r.name, r.max_points, r.off_days, r.preferred_zone, r.allowed_zones)

lemma attrs_update_points (db : List Row) (n : String) (pv : Int) :
    (update_points db n pv).map attrs = db.map attrs := by
  unfold update_points
  rw [List.map_map]
  apply List.map_congr_left
  intro r _
  by_cases h : r.name == n <;> simp [h, attrs, Function.comp]

/-- The winner's ceiling as the engine reads it from the row found for a
name: `int(r["max_points"]) if pd.notna(r["max_points"]) else 0`. -/
def ceiling_of (db : List Row) (n : String) : Int :=
  match db.find? (fun r => r.name == n) with
  | some r => r.max_points.getD 0
  | none => 0

lemma ceiling_of_eq_of_mem :
    ∀ {db db0 : List Row} {r0 : Row},
      db.map attrs = db0.map attrs → (db0.map Row.name).Nodup → r0 ∈ db →
      ceiling_of db0 r0.name = r0.max_points.getD 0 := by
  intro db
  induction db with
  | nil => intro db0 r0 _ _ hr; cases hr
  | cons r rs ih =>
    intro db0 r0 hattr hnd hr
    cases db0 with
    | nil => simp at hattr
    | cons r0h rs0 =>
      simp only [List.map_cons, List.cons.injEq] at hattr
      obtain ⟨hhead, htail⟩ := hattr
      have hname : r.name = r0h.name := congrArg Prod.fst hhead
      have hmax : r.max_points = r0h.max_points :=
        congrArg (fun p => p.2.1) hhead
      simp only [List.map_cons, List.nodup_cons] at hnd
      rcases List.mem_cons.mp hr with rfl | hr
      · unfold ceiling_of
        rw [List.find?_cons_of_pos _ (by simp [hname])]
        rw [hmax]
      · have hr0mem : r0.name ∈ rs0.map Row.name := by
          have : rs.map Row.name = rs0.map Row.name := by
            have := congrArg (List.map (fun p => p.1)) htail
            simpa [List.map_map, Function.comp] using this
          rw [← this]
          exact List.mem_map_of_mem Row.name hr
        have hne : r0h.name ≠ r0.name := fun h => hnd.1 (h ▸ hr0mem)
        unfold ceiling_of
        rw [List.find?_cons_of_neg _ (by simp [hne])]
        exact ih htail hnd.2 hr

/-- A person's in-run load just before a given point of the output list:
the initial snapshot value plus the points of all of their earlier
assignment records. -/
def loadBefore (db : List Row) (recs : List AssignmentRecord) (n : String) : Int :=
  init_points_map db n +
    ((recs.filter (fun r => r.employee == n)).map (fun r => r.points)).sum

lemma loadBefore_append (db : List Row) (recs : List AssignmentRecord)
    (rec : AssignmentRecord) (n : String) :
    loadBefore db (recs ++ [rec]) n =
      loadBefore db recs n + (if rec.employee = n then rec.points else 0) := by
  unfold loadBefore
  rw [List.filter_append]
  by_cases h : rec.employee = n
  · simp [h, List.filter, add_assoc]
  · have hb : (rec.employee == n) = false := beq_eq_false_iff_ne.mpr h
    simp [h, hb, List.filter]

lemma snoc_eq_append_cons {α : Type} :
    ∀ {pre l : List α} {x r : α} {post : List α},
      l ++ [x] = pre ++ r :: post →
      (∃ post', l = pre ++ r :: post') ∨ (pre = l ∧ r = x ∧ post = []) := by
  intro pre
  induction pre with
  | nil =>
    intro l x r post h
    cases l with
    | nil =>
      simp only [List.nil_append] at h
      cases h
      exact Or.inr ⟨rfl, rfl, rfl⟩
    | cons a l' =>
      simp only [List.cons_append, List.nil_append] at h
      cases h
      exact Or.inl ⟨l', rfl⟩
  | cons p pre' ih =>
    intro l x r post h
    cases l with
    | nil =>
      simp only [List.nil_append, List.cons_append] at h
      injection h with h1 h2
      cases pre' <;> simp at h2
    | cons a l' =>
      simp only [List.cons_append] at h
      injection h with h1 h2
      subst h1
      rcases ih h2 with ⟨post', hp⟩ | ⟨hp, hr, hpost⟩
      · exact Or.inl ⟨post', by rw [hp]; rfl⟩
      · exact Or.inr ⟨by rw [hp], hr, hpost⟩

/-- Every record of the list satisfies the prospective ceiling bound. -/
def CeilOK (db0 : List Row) (recs : List AssignmentRecord) : Prop :=
  ∀ pre r post, recs = pre ++ r :: post →
    loadBefore db0 pre r.employee + r.points ≤ ceiling_of db0 r.employee

/-- Run invariant tying the in-memory points map to the record history and
recording that the engine never alters attribute columns. -/
def PtsInv (db0 : List Row) (st : RunState) : Prop :=
  (∀ n, st.points_map n = loadBefore db0 st.schedule n) ∧
  st.db.map attrs = db0.map attrs ∧
  CeilOK db0 st.schedule

lemma PtsInv_stepZone (db0 : List Row) (hnd : (db0.map Row.name).Nodup)
    (ap : Bool) (d : Nat) (pv : Int) (st : RunState) (z : String)
    (h : PtsInv db0 st) : PtsInv db0 (stepZone ap d pv st z) := by
  obtain ⟨hpm, hattr, hceil⟩ := h
  unfold stepZone
  by_cases hemp : st.db.isEmpty
  · simp only [hemp, if_true]
    exact ⟨hpm, hattr, hceil⟩
  · simp only [hemp, Bool.false_eq_true, if_false]
    cases hcw : chooseWinner
        (collect_candidates d z pv st.points_map st.assigned_last st.assigned_today st.db) with
    | none => exact ⟨hpm, hattr, hceil⟩
    | some c =>
      have hcmem := chooseWinner_mem hcw
      rw [mem_collect_candidates] at hcmem
      obtain ⟨r0, hr0, hc, _, _, _, hload, _⟩ := hcmem
      subst hc
      refine ⟨?_, ?_, ?_⟩
      · intro n
        show (if n = r0.name then st.points_map n + pv else st.points_map n) =
          loadBefore db0 (st.schedule ++
            [{ date := d, shift := z, employee := r0.name, points := pv }]) n
        rw [loadBefore_append]
        by_cases hn : n = r0.name
        · simp [hn, hpm r0.name]
        · simp [hn, Ne.symm hn, hpm n]
      · show (if ap then update_points st.db r0.name pv else st.db).map attrs =
          db0.map attrs
        by_cases hap : ap
        · rw [if_pos hap, attrs_update_points]; exact hattr
        · rw [if_neg hap]; exact hattr
      · intro pre r post heq
        rcases snoc_eq_append_cons heq with ⟨post', hp⟩ | ⟨hp, hr, -⟩
        · exact hceil pre r post' hp
        · subst hp
          subst hr
          show loadBefore db0 st.schedule r0.name + pv ≤ ceiling_of db0 r0.name
          rw [← hpm r0.name, ceiling_of_eq_of_mem hattr hnd hr0]
          exact hload

lemma PtsInv_run (db : List Row) (hnd : (db.map Row.name).Nodup)
    (s e : Nat) (ap : Bool) : PtsInv db (runSchedule db s e ap) := by
  unfold runSchedule
  apply foldl_preserves (P := PtsInv db)
  · intro st d hst
    unfold stepDay
    apply foldl_preserves (P := PtsInv db)
    · intro st' z hst'
      exact PtsInv_stepZone db hnd ap d (point_value d) st' z hst'
    · exact hst
  · refine ⟨?_, rfl, ?_⟩
    · intro n
      simp [initState, loadBefore]
    · intro pre r post heq
      simp only [initState] at heq
      cases pre <;> simp at heq

/-- C4: for every assignment record emitted by a run, the winner's in-run
load immediately before that assignment plus the record's day cost stays
within that person's ceiling — the bound is enforced prospectively, so it
holds at the moment of commitment. -/
theorem c4_ceiling_invariant (db : List Row) (s e : Nat) (ap : Bool)
    (hnd : (db.map Row.name).Nodup) (pre : List AssignmentRecord)
    (rec : AssignmentRecord) (post : List AssignmentRecord)
    (h : (runSchedule db s e ap).schedule = pre ++ rec :: post) :
    loadBefore db pre rec.employee + rec.points ≤ ceiling_of db rec.employee :=
  (PtsInv_run db hnd s e ap).2.2 pre rec post h

/-- C4 witness: in the one-person run from the smoke example, the first
emitted record satisfies the prospective ceiling bound. -/
theorem c4_ceiling_invariant_witness :
    loadBefore [{ name := "X", points := some 0, max_points := some 10,
                  off_days := [], preferred_zone := none,
                  allowed_zones := ["A"] }] [] "X" + 1 ≤
      ceiling_of [{ name := "X", points := some 0, max_points := some 10,
                    off_days := [], preferred_zone := none,
                    allowed_zones := ["A"] }] "X" :=
  c4_ceiling_invariant
    [{ name := "X", points := some 0, max_points := some 10, off_days := [],
       preferred_zone := none, allowed_zones := ["A"] }] 0 3 false (by decide)
    [] { date := 0, shift := "A", employee := "X", points := 1 }
    [{ date := 3, shift := "A", employee := "X", points := 1 }] (by decide)

/-! ### Run invariants: cooldown and no double-booking -/

/-- The required relation between an earlier and a later assignment
record: same person forces a gap of at least 3 days. -/
def Gap (r1 r2 : AssignmentRecord) : Prop :=
  r1.employee = r2.employee → r1.date + 3 ≤ r2.date

/-- Date-independent part of the cooldown invariant: all emitted pairs
respect the gap, and every emitted record's person has a last-assigned
date at least as late as that record. -/
def CooldownBase (st : RunState) : Prop :=
  st.schedule.Pairwise Gap ∧
  ∀ rec ∈ st.schedule, ∃ l, st.assigned_last rec.employee = some l ∧ rec.date ≤ l

/-- All recorded last-assignment dates are at most the given date. -/
def LastLE (st : RunState) (d : Nat) : Prop :=
  ∀ n l, st.assigned_last n = some l → l ≤ d

lemma cooldown_stepZone (ap : Bool) (d : Nat) (pv : Int) (st : RunState)
    (z : String) (h : CooldownBase st ∧ LastLE st d) :
    CooldownBase (stepZone ap d pv st z) ∧ LastLE (stepZone ap d pv st z) d := by
  obtain ⟨⟨hpw, hlast⟩, hle⟩ := h
  unfold stepZone
  by_cases hemp : st.db.isEmpty
  · simp only [hemp, if_true]
    exact ⟨⟨hpw, hlast⟩, hle⟩
  · simp only [hemp, Bool.false_eq_true, if_false]
    cases hcw : chooseWinner
        (collect_candidates d z pv st.points_map st.assigned_last st.assigned_today st.db) with
    | none => exact ⟨⟨hpw, hlast⟩, hle⟩
    | some c =>
      have hcmem := chooseWinner_mem hcw
      rw [mem_collect_candidates] at hcmem
      obtain ⟨r0, _, hc, _, _, hcool, _, _⟩ := hcmem
      subst hc
      refine ⟨⟨?_, ?_⟩, ?_⟩
      · show (st.schedule ++
          [({ date := d, shift := z, employee := r0.name, points := pv } :
            AssignmentRecord)]).Pairwise Gap
        rw [List.pairwise_append]
        refine ⟨hpw, List.pairwise_singleton _ _, ?_⟩
        intro a ha b hb
        simp only [List.mem_singleton] at hb
        subst hb
        intro hab
        obtain ⟨l, hal, had⟩ := hlast a ha
        rw [hab] at hal
        have h3 := hcool l hal
        show a.date + 3 ≤ d
        omega
      · intro rec hrec
        rcases List.mem_append.mp hrec with hrec | hrec
        · obtain ⟨l, hal, had⟩ := hlast rec hrec
          by_cases hn : rec.employee = r0.name
          · exact ⟨d, by simp [hn], le_trans had (hle _ l (hn ▸ hal))⟩
          · exact ⟨l, by simp [hn, hal], had⟩
        · simp only [List.mem_singleton] at hrec
          subst hrec
          exact ⟨d, by simp, le_refl d⟩
      · intro n l hl
        by_cases hn : n = r0.name
        · simp only [hn, if_pos rfl] at hl
          cases hl
          exact le_refl d
        · simp only [if_neg hn] at hl
          exact hle n l hl

lemma cooldown_stepDay (ap : Bool) (st : RunState) (d : Nat)
    (h : CooldownBase st ∧ LastLE st d) :
    CooldownBase (stepDay ap st d) ∧ LastLE (stepDay ap st d) d := by
  unfold stepDay
  apply foldl_preserves (P := fun st => CooldownBase st ∧ LastLE st d)
  · intro st' z hst'
    exact cooldown_stepZone ap d (point_value d) st' z hst'
  · exact h

lemma cooldown_foldDays (ap : Bool) :
    ∀ (ds : List Nat) (st : RunState), ds.Pairwise (· ≤ ·) →
      CooldownBase st → (∀ d ∈ ds, LastLE st d) →
      CooldownBase (ds.foldl (stepDay ap) st) := by
  intro ds
  induction ds with
  | nil => intro st _ hbase _; exact hbase
  | cons d ds ih =>
    intro st hsorted hbase hle
    simp only [List.foldl_cons]
    obtain ⟨hd, hsorted'⟩ := List.pairwise_cons.mp hsorted
    have hstep := cooldown_stepDay ap st d ⟨hbase, hle d (List.mem_cons_self d ds)⟩
    apply ih _ hsorted' hstep.1
    intro d' hd' n l hl
    exact le_trans (hstep.2 n l hl) (hd d' hd')

lemma pairwise_le_dateRange (s e : Nat) : (dateRange s e).Pairwise (· ≤ ·) := by
  unfold dateRange
  exact (List.pairwise_le_range (e + 1 - s)).map _ (fun a b hab => by omega)

lemma cooldown_run (db : List Row) (s e : Nat) (ap : Bool) :
    (runSchedule db s e ap).schedule.Pairwise Gap := by
  unfold runSchedule
  exact (cooldown_foldDays ap (dateRange s e) (initState db)
    (pairwise_le_dateRange s e)
    ⟨List.Pairwise.nil, fun rec hrec => absurd hrec (List.not_mem_nil rec)⟩
    (fun d _ n l hl => by cases hl)).1

/-- C5: within one run no person receives two assignment records fewer
than 3 calendar days apart, and in particular no person is the winner of
two zones on the same date. -/
theorem c5_cooldown_no_double_booking (db : List Row) (s e : Nat) (ap : Bool)
    (pre : List AssignmentRecord) (r1 : AssignmentRecord)
    (mid : List AssignmentRecord) (r2 : AssignmentRecord)
    (post : List AssignmentRecord)
    (h : (runSchedule db s e ap).schedule = pre ++ r1 :: (mid ++ r2 :: post))
    (hemp : r1.employee = r2.employee) :
    r1.date + 3 ≤ r2.date ∧ r1.date ≠ r2.date := by
  have hpw := cooldown_run db s e ap
  rw [h] at hpw
  obtain ⟨-, hpw2, -⟩ := List.pairwise_append.mp hpw
  have hg := (List.pairwise_cons.mp hpw2).1 r2 (by simp)
  have h3 := hg hemp
  exact ⟨h3, by omega⟩

/-- C5 witness: the one-person run assigns "X" on days 0 and 3; the
theorem applies and yields the 3-day gap and distinct dates. -/
theorem c5_cooldown_no_double_booking_witness :
    (0 : Nat) + 3 ≤ 3 ∧ (0 : Nat) ≠ 3 := by
  have h := c5_cooldown_no_double_booking
    [{ name := "X", points := some 0, max_points := some 10, off_days := [],
       preferred_zone := none, allowed_zones := ["A"] }] 0 3 false
    [] { date := 0, shift := "A", employee := "X", points := 1 }
    [] { date := 3, shift := "A", employee := "X", points := 1 } []
    (by decide) rfl
  exact h

/-! ### Determinism, validation, persistence frame, upsert -/

/-- C6: the engine is a pure function of the roster snapshot, the date
range and the persistence flag — identical inputs give identical
assignment and unassigned sequences, with no randomization anywhere. -/
theorem c6_deterministic (db1 db2 : List Row) (s1 s2 e1 e2 : Nat)
    (ap1 ap2 : Bool) (h1 : db1 = db2) (h2 : s1 = s2) (h3 : e1 = e2)
    (h4 : ap1 = ap2) :
    generate_schedule db1 s1 e1 ap1 = generate_schedule db2 s2 e2 ap2 := by
  subst h1; subst h2; subst h3; subst h4; rfl

/-- C6 witness: two identical concrete invocations agree. -/
theorem c6_deterministic_witness :
    generate_schedule [] 0 0 false = generate_schedule [] 0 0 false :=
  c6_deterministic [] [] 0 0 0 0 false false rfl rfl rfl rfl

/-- C7: a reversed date range is rejected with the validation error before
the engine runs, the day list is empty, and no assignment or unassigned
record is produced. -/
theorem c7_validation_before_run (db : List Row) (s e : Nat) (ap : Bool)
    (h : e < s) :
    generate_button db s e ap =
        Except.error "Start date must be on or before end date." ∧
      dateRange s e = [] ∧
      (runSchedule db s e ap).schedule = [] ∧
      (runSchedule db s e ap).unassigned = [] := by
  have hr : dateRange s e = [] := by
    unfold dateRange
    have h0 : e + 1 - s = 0 := by omega
    rw [h0]
    rfl
  refine ⟨?_, hr, ?_, ?_⟩
  · unfold generate_button
    rw [if_pos h]
  · unfold runSchedule
    rw [hr]
    rfl
  · unfold runSchedule
    rw [hr]
    rfl

/-- C7 witness: start 1, end 0 is rejected and produces nothing. -/
theorem c7_validation_before_run_witness :
    generate_button [] 1 0 false =
        Except.error "Start date must be on or before end date." ∧
      dateRange 1 0 = [] ∧
      (runSchedule [] 1 0 false).schedule = [] ∧
      (runSchedule [] 1 0 false).unassigned = [] :=
  c7_validation_before_run [] 1 0 false (by decide)

lemma db_stepZone_noapply (d : Nat) (pv : Int) (st : RunState) (z : String) :
    (stepZone false d pv st z).db = st.db := by
  unfold stepZone
  by_cases hemp : st.db.isEmpty
  · simp only [hemp, if_true]
  · simp only [hemp, Bool.false_eq_true, if_false]
    cases hcw : chooseWinner
        (collect_candidates d z pv st.points_map st.assigned_last st.assigned_today st.db) with
    | none => rfl
    | some c => rfl

lemma db_run_noapply (db : List Row) (s e : Nat) :
    (runSchedule db s e false).db = db := by
  unfold runSchedule
  have h := foldl_preserves (P := fun st : RunState => st.db = db)
    (stepDay false) ?_ (dateRange s e) (initState db) rfl
  · exact h
  · intro st d hst
    unfold stepDay
    exact foldl_preserves (P := fun st : RunState => st.db = db)
      (stepZone false d (point_value d))
      (fun st' z hst' => (db_stepZone_noapply d (point_value d) st' z).trans hst')
      ZONES _ hst

/-- C8: after resetting every person's points to 0, a run with
`apply_points = false` performs no store write: the persisted table after
the run is the reset table, every load still 0. -/
theorem c8_reset_then_run_frame (db : List Row) (s e : Nat) :
    (runSchedule (reset_points db none) s e false).db = reset_points db none ∧
      ∀ r ∈ (runSchedule (reset_points db none) s e false).db,
        r.points = some 0 := by
  have h := db_run_noapply (reset_points db none) s e
  refine ⟨h, ?_⟩
  rw [h]
  intro r hr
  unfold reset_points at hr
  obtain ⟨r0, -, rfl⟩ := List.mem_map.mp hr
  rfl

lemma find?_map_name_preserving (f : Row → Row)
    (hf : ∀ r, (f r).name = r.name) (db : List Row) (n : String) :
    (db.map f).find? (fun r => r.name == n) =
      (db.find? (fun r => r.name == n)).map f := by
  induction db with
  | nil => rfl
  | cons r rs ih =>
    by_cases h : r.name = n
    · rw [List.map_cons, List.find?_cons_of_pos _ (by simp [hf, h]),
        List.find?_cons_of_pos _ (by simp [h])]
      rfl
    · rw [List.map_cons, List.find?_cons_of_neg _ (by simp [hf, h]),
        List.find?_cons_of_neg _ (by simp [h])]
      exact ih

/-- C9: upserting an existing person overwrites the ceiling, blocked
dates, preferred zone and allowed zones but leaves the stored points
untouched; upserting an absent name appends a fresh row carrying the
given initial points. -/
theorem c9_upsert_keeps_points (db : List Row) (n : String) (ip mp : Int)
    (od : List Nat) (pz : Option String) (az : List String) :
    (∀ r, db.find? (fun x => x.name == n) = some r →
       ∃ r', (add_or_update_employee db n ip mp od pz az).find?
           (fun x => x.name == n) = some r' ∧
         r'.points = r.points ∧ r'.max_points = some mp ∧ r'.off_days = od ∧
         r'.preferred_zone = pz ∧ r'.allowed_zones = az) ∧
    (db.find? (fun x => x.name == n) = none →
       add_or_update_employee db n ip mp od pz az =
         db ++ [{ name := n, points := some ip, max_points := some mp,
                  off_days := od, preferred_zone := pz,
                  allowed_zones := az }]) := by
  constructor
  · intro r hfind
    have hp := List.find?_some hfind
    have hany : db.any (fun r => r.name == n) = true :=
      List.any_eq_true.mpr ⟨r, List.mem_of_find?_eq_some hfind, hp⟩
    unfold add_or_update_employee
    simp only [hany, if_true]
    rw [find?_map_name_preserving _ (fun r => by
          by_cases hx : r.name == n <;> simp [hx]) db n, hfind]
    refine ⟨_, rfl, ?_⟩
    simp [hp]
  · intro hnone
    have hall : ∀ r ∈ db, ¬(r.name == n) = true :=
      List.find?_eq_none.mp hnone
    have hany : db.any (fun r => r.name == n) = false := by
      rw [List.any_eq_false]
      exact hall
    unfold add_or_update_employee
    simp only [hany, Bool.false_eq_true, if_false]
    rw [List.map_append]
    have h2 : ∀ r ∈ db, (fun r =>
        if r.name == n then
          { r with max_points := some mp, off_days := od,
                   preferred_zone := pz, allowed_zones := az }
        else r) r = id r := by
      intro r hr
      have hne := hall r hr
      simp only [Bool.not_eq_true] at hne
      simp [hne]
    rw [List.map_congr_left h2, List.map_id]
    simp

/-- C9 witness: upserting the existing "X" keeps its stored points 7
while overwriting the four attribute columns. -/
theorem c9_upsert_keeps_points_witness :
    ∃ r', (add_or_update_employee
        [{ name := "X", points := some 7, max_points := some 10,
           off_days := [], preferred_zone := none, allowed_zones := ["A"] }]
        "X" 0 4 [3] (some "B") ["A", "B"]).find?
          (fun x => x.name == "X") = some r' ∧
      r'.points = some 7 ∧ r'.max_points = some 4 ∧ r'.off_days = [3] ∧
      r'.preferred_zone = some "B" ∧ r'.allowed_zones = ["A", "B"] :=
  (c9_upsert_keeps_points
      [{ name := "X", points := some 7, max_points := some 10, off_days := [],
         preferred_zone := none, allowed_zones := ["A"] }]
      "X" 0 4 [3] (some "B") ["A", "B"]).1
    { name := "X", points := some 7, max_points := some 10, off_days := [],
      preferred_zone := none, allowed_zones := ["A"] } (by decide)

/-! ### Behaviour of a NULL ceiling -/

lemma one_le_point_value (d : Nat) : 1 ≤ point_value d := by
  unfold point_value
  split <;> norm_num

/-- C10 counterexample: a person with a NULL `max_points` but a negative
stored `points` value (-5) passes the ceiling test (-5 + 1 ≤ 0) and IS
emitted in an assignment record, so a NULL ceiling alone does not keep a
person out of the schedule. -/
theorem c10_null_ceiling_counterexample :
    ∃ rec ∈ (runSchedule
        [{ name := "X", points := some (-5), max_points := none,
           off_days := [], preferred_zone := none,
           allowed_zones := ["A"] }] 0 0 false).schedule,
      rec.employee = "X" := by
  decide

/-- Run invariant for a person all of whose rows carry a NULL ceiling and
whose in-run load stays nonnegative: never assigned. -/
def NeverAssigned (n : String) (st : RunState) : Prop :=
  (∀ rec ∈ st.schedule, rec.employee ≠ n) ∧ 0 ≤ st.points_map n ∧
  ∀ r ∈ st.db, r.name = n → r.max_points = none

lemma NeverAssigned_stepZone (n : String) (ap : Bool) (d : Nat) (pv : Int)
    (hpv : 1 ≤ pv) (st : RunState) (z : String) (h : NeverAssigned n st) :
    NeverAssigned n (stepZone ap d pv st z) := by
  obtain ⟨hsched, hpts, hmax⟩ := h
  unfold stepZone
  by_cases hemp : st.db.isEmpty
  · simp only [hemp, if_true]
    exact ⟨hsched, hpts, hmax⟩
  · simp only [hemp, Bool.false_eq_true, if_false]
    cases hcw : chooseWinner
        (collect_candidates d z pv st.points_map st.assigned_last st.assigned_today st.db) with
    | none => exact ⟨hsched, hpts, hmax⟩
    | some c =>
      have hcmem := chooseWinner_mem hcw
      rw [mem_collect_candidates] at hcmem
      obtain ⟨r0, hr0, hc, -, -, -, hload, -⟩ := hcmem
      subst hc
      have hne : r0.name ≠ n := by
        intro hn
        have hm := hmax r0 hr0 hn
        rw [hn, hm] at hload
        simp only [Option.getD_none] at hload
        omega
      refine ⟨?_, ?_, ?_⟩
      · intro rec hrec
        rcases List.mem_append.mp hrec with hrec | hrec
        · exact hsched rec hrec
        · simp only [List.mem_singleton] at hrec
          subst hrec
          exact hne
      · show 0 ≤ (if n = r0.name then st.points_map n + pv else st.points_map n)
        rw [if_neg (fun hn => hne hn.symm)]
        exact hpts
      · show ∀ r ∈ (if ap then update_points st.db r0.name pv else st.db),
          r.name = n → r.max_points = none
        by_cases hap : ap
        · rw [if_pos hap]
          intro r hr hrn
          unfold update_points at hr
          obtain ⟨r1, hr1, rfl⟩ := List.mem_map.mp hr
          by_cases hb : r1.name == r0.name
          · simp only [hb, if_true] at hrn ⊢
            exact hmax r1 hr1 hrn
          · simp only [hb, Bool.false_eq_true, if_false] at hrn ⊢
            exact hmax r1 hr1 hrn
        · rw [if_neg hap]
          exact hmax

/-- C10 amended: for a person whose stored ceiling is NULL (treated as 0)
AND whose stored points are nonnegative, the day cost of at least 1 makes
the ceiling test fail on every date, so the person is never emitted in an
assignment record. -/
theorem c10_amended_null_ceiling (db : List Row) (s e : Nat) (ap : Bool)
    (n : String) (hmax : ∀ r ∈ db, r.name = n → r.max_points = none)
    (hpts : 0 ≤ init_points_map db n) :
    ∀ rec ∈ (runSchedule db s e ap).schedule, rec.employee ≠ n := by
  have h : NeverAssigned n (runSchedule db s e ap) := by
    unfold runSchedule
    apply foldl_preserves (P := NeverAssigned n)
    · intro st d hst
      unfold stepDay
      apply foldl_preserves (P := NeverAssigned n)
      · intro st' z hst'
        exact NeverAssigned_stepZone n ap d (point_value d)
          (one_le_point_value d) st' z hst'
      · exact hst
    · exact ⟨fun rec hrec => absurd hrec (List.not_mem_nil rec), hpts, hmax⟩
  exact h.1

/-- C10 amended witness: with NULL ceiling and stored points 0, "X" is
never assigned over a one-day run. -/
theorem c10_amended_null_ceiling_witness :
    ((runSchedule
        [{ name := "X", points := some 0, max_points := none, off_days := [],
           preferred_zone := none, allowed_zones := ["A"] }] 0 0 false).schedule.all
      (fun rec => rec.employee != "X")) = true := by
  have h := c10_amended_null_ceiling
    [{ name := "X", points := some 0, max_points := none, off_days := [],
       preferred_zone := none, allowed_zones := ["A"] }] 0 0 false "X"
    (by decide) (by decide)
  rw [List.all_eq_true]
  intro rec hrec
  simpa using h rec hrec

/-- C3 witness: scenario C — two candidates both preferring the target
zone, with loads 3 and 0; the theorem applies and the lower-loaded "X"
wins. -/
theorem c3_ranker_minimal_unique_witness :
    (∃ w, chooseWinner [(true, 3, "Y"), (true, 0, "X")] = some w ∧
       w ∈ [(true, (3 : Int), "Y"), (true, 0, "X")] ∧
       (∀ c ∈ [(true, (3 : Int), "Y"), (true, 0, "X")], candLE w c) ∧
       ∀ w' ∈ [(true, (3 : Int), "Y"), (true, 0, "X")],
         (∀ c ∈ [(true, (3 : Int), "Y"), (true, 0, "X")], candLE w' c) → w' = w) ∧
    chooseWinner [(true, 3, "Y"), (true, 0, "X")] = some (true, 0, "X") :=
  ⟨c3_ranker_minimal_unique [(true, 3, "Y"), (true, 0, "X")] (by decide),
   by decide⟩
